import Mathlib

/-!
Verification of the convolution / pooling core of `src/src/cnn-utility.cu`
(a CUDA CNN compute engine).  The device kernels and the host-side layer
protocols are shallowly embedded over exact rational arithmetic: a device
matrix is a column-major array of values, a kernel launch is modelled by
the per-output-entry value it writes, and fallible host functions return
`Except`.  The headers `cnn-utility.h` / `device_matrix.h` are not part of
the sources, so the few entities they declare (the `SIZE` pair, the
`ConvType` enumeration, matrix construction/resize fill) are modelled from
the specification, as noted on each such definition.
-/

namespace CnnUtility

/-- Modelled from the spec: `SIZE` (declared in the missing `cnn-utility.h`)
is a pair (rows, cols) of dimensions with elementwise arithmetic; signed
components so that `VALID` convolution can clamp a negative result. -/
structure SZ where
  m : Int
  n : Int
deriving DecidableEq, Repr

/-- Elementwise sum of two sizes (`SIZE + SIZE`). -/
def SZ.add (a b : SZ) : SZ := ⟨a.m + b.m, a.n + b.n⟩

/-- Elementwise difference of two sizes (`SIZE - SIZE`). -/
def SZ.sub (a b : SZ) : SZ := ⟨a.m - b.m, a.n - b.n⟩

/-- Adding a scalar to both components (`SIZE + int`). -/
def SZ.addC (a : SZ) (c : Int) : SZ := ⟨a.m + c, a.n + c⟩

/-- Elementwise maximum of two sizes (`max(SIZE, SIZE)`). -/
def SZ.maxS (a b : SZ) : SZ := ⟨max a.m b.m, max a.n b.n⟩

/-- `SIZE::area()`: number of pixels. -/
def SZ.area (a : SZ) : Int := a.m * a.n

/-- Modelled from the spec: the `ConvType` enumeration (declared in the
missing `cnn-utility.h`) has the six members SAME, SAME_SHM, VALID,
VALID_SHM, FULL, FULL_SHM; it is embedded as the underlying C integer so
that the dispatchers' `default:` branches (reachable in C++ by casting an
out-of-range integer to the enum) are expressible. -/
def SAME : ℕ := 0

/-- `ConvType::SAME_SHM` (see `SAME`). -/
def SAME_SHM : ℕ := 1

/-- `ConvType::VALID` (see `SAME`). -/
def VALID : ℕ := 2

/-- `ConvType::VALID_SHM` (see `SAME`). -/
def VALID_SHM : ℕ := 3

/-- `ConvType::FULL` (see `SAME`). -/
def FULL : ℕ := 4

/-- `ConvType::FULL_SHM` (see `SAME`). -/
def FULL_SHM : ℕ := 5

/-- `get_convn_size(SIZE, SIZE, ConvType)` of `cnn-utility.cu`:
output size of a convolution, or the thrown unknown-type error. -/
def get_convn_size (data kernel : SZ) (type : ℕ) : Except String SZ :=
  if type = SAME ∨ type = SAME_SHM then
    .ok data
  else if type = VALID ∨ type = VALID_SHM then
    .ok (SZ.maxS ((data.sub kernel).addC 1) ⟨0, 0⟩)
  else if type = FULL ∨ type = FULL_SHM then
    .ok ((data.add kernel).addC (-1))
  else
    .error "Unknown type of convolution."

/-- Which device kernel a `convn` call launches. -/
inductive LaunchKind where
  | same
  | valid
  | full
deriving DecidableEq, Repr

/-- Control-flow-level result of `convn`: the size of the allocated output
matrix, and which convolution kernel (if any) was launched into it. -/
structure ConvnResult where
  outSize : SZ
  launched : Option LaunchKind
deriving DecidableEq, Repr

/-- The generic dispatcher `convn(data, kernel, type)` of `cnn-utility.cu`,
at the level of control flow: it allocates an output of `get_convn_size`,
then switches on the mode.  The `SAME_SHM` / `VALID_SHM` / `FULL_SHM`
branches are `// TODO` followed by `break` in the source: no kernel is
launched and the function returns the allocated output. -/
def convn (data kernel : SZ) (type : ℕ) : Except String ConvnResult :=
  match get_convn_size data kernel type with
  | .error e => .error e
  | .ok s =>
    if type = SAME then .ok ⟨s, some .same⟩
    else if type = SAME_SHM then .ok ⟨s, none⟩
    else if type = VALID then .ok ⟨s, some .valid⟩
    else if type = VALID_SHM then .ok ⟨s, none⟩
    else if type = FULL then .ok ⟨s, some .full⟩
    else if type = FULL_SHM then .ok ⟨s, none⟩
    else .error "Unknown convolution type"

/-- `MAX_SHARED_MEMORY_SIZE` = 48 * 1024 bytes. -/
def MAX_SHARED_MEMORY_SIZE : ℕ := 48 * 1024

/-- The shared-memory footprint formula of `getSuitableShmConfig`:
`(kW*kH + (threads.x + kW - 1) * (threads.y + kH - 1)) * sizeof(float)`. -/
def shmSize (tx ty kH kW : ℕ) : ℕ :=
  (kW * kH + (tx + kW - 1) * (ty + kH - 1)) * 4

/-- The shrinking loop of `getSuitableShmConfig`: while the footprint
exceeds the budget and the block still has at least 32 threads, halve the
larger block axis and double the corresponding grid axis.  Returns the
final `(grids.x, grids.y, threads.x, threads.y)`. -/
def shmLoop (gx gy tx ty kH kW : ℕ) : ℕ × ℕ × ℕ × ℕ :=
  if h : MAX_SHARED_MEMORY_SIZE < shmSize tx ty kH kW ∧ 32 ≤ tx * ty then
    if tx ≥ ty then
      shmLoop (gx * 2) gy (tx / 2) ty kH kW
    else
      shmLoop gx (gy * 2) tx (ty / 2) kH kW
  else
    (gx, gy, tx, ty)
termination_by tx + ty
decreasing_by
  · have htx : 6 ≤ tx := by nlinarith [h.2]
    omega
  · have hty : 6 ≤ ty := by nlinarith [h.2]
    omega

/-- `getSuitableShmConfig(grids, threads, kH, kW)`: run the shrinking loop,
then either return the final configuration and its exact byte count, or
throw the over-budget error (whose message reports the final grid/thread
configuration and the needed byte count, carried here as the payload). -/
def getSuitableShmConfig (gx gy tx ty kH kW : ℕ) :
    Except (ℕ × ℕ × ℕ × ℕ × ℕ) ((ℕ × ℕ × ℕ × ℕ) × ℕ) :=
  match shmLoop gx gy tx ty kH kW with
  | (gx', gy', tx', ty') =>
    let s := shmSize tx' ty' kH kW
    if MAX_SHARED_MEMORY_SIZE < s then
      .error (gx', gy', tx', ty', s)
    else
      .ok ((gx', gy', tx', ty'), s)

/-! ### Device kernels, value level

A device buffer is a total function `ℕ → ℚ` from flat (column-major)
indices to exact values; out-of-range reads of uninitialized shared memory
are made explicit by a garbage function `g`. -/

/-- `load_kernel_into_shm<rot180kernel>`: the value the cooperative copy
loop leaves at shared-memory slot `p` (`p < kH*kW`; every such slot is
written exactly once).  With `rot180kernel` the kernel is copied as-is;
without it, slot `(kW-1-xx)*kH + (kH-1-yy)` receives element `(xx,yy)`,
i.e. slot `p` holds the 180°-rotated kernel. -/
def load_kernel_into_shm (rot180kernel : Bool) (kernel : ℕ → ℚ)
    (kH kW : ℕ) (p : ℕ) : ℚ :=
  cond rot180kernel
    (kernel p)
    (kernel ((kW - 1 - p / kH) * kH + (kH - 1 - p % kH)))

/-- The shared-memory data tile of `convn_valid_kernel_with_shm`: slot `t`
(`t < (blockDim.x+kW-1)*(blockDim.y+kH-1)`) holds data element
`(t / HEIGHT_STEP + x0, t % HEIGHT_STEP + y0)` — 180°-rotated when
`rot180data` — and retains the uninitialized garbage `g t` when that
coordinate is out of range (the loop `continue`s without writing). -/
def validTile (rot180data : Bool) (g dat : ℕ → ℚ)
    (H W x0 y0 HS : ℕ) (t : ℕ) : ℚ :=
  let xx := t / HS + x0
  let yy := t % HS + y0
  if xx < W ∧ yy < H then
    cond rot180data
      (dat ((W - 1 - xx) * H + (H - 1 - yy)))
      (dat (xx * H + yy))
  else g t

/-- `convn_valid_kernel_with_shm<rot180data, rot180kernel>`: the value of
output entry `(x, y)` after the launch, for a thread block of shape
`(bdx, bdy)` (the block containing `(x,y)` has origin
`(x - x % bdx, y - y % bdy)`).  Threads outside the valid output return
before writing, so the entry keeps its prior value `init`; otherwise the
thread accumulates (`+=`) the kernel-window dot product read entirely from
shared memory. -/
def convn_valid_shm_entry (rot180data rot180kernel : Bool) (g dat kernel : ℕ → ℚ)
    (vH vW H W kH kW bdx bdy : ℕ) (init : ℚ) (x y : ℕ) : ℚ :=
  if x < vW ∧ y < vH then
    init + ∑ i ∈ Finset.range kW, ∑ j ∈ Finset.range kH,
      load_kernel_into_shm rot180kernel kernel kH kW (i * kH + j) *
        validTile rot180data g dat H W (x - x % bdx) (y - y % bdy)
          (bdy + kH - 1) ((x % bdx + i) * (bdy + kH - 1) + (y % bdy + j))
  else init

/-- `convn_valid_kernel` (the direct, non-tiled VALID kernel): the value
written to output entry `(x, y)` for `x < vW`, `y < vH`:
`Σ_{i<kW, j<kH} kernel[i*kH+j] * data[(x+kW-1-i)*H + (y+kH-1-j)]`. -/
def convn_valid_entry (dat kernel : ℕ → ℚ) (H kH kW : ℕ) (x y : ℕ) : ℚ :=
  ∑ i ∈ Finset.range kW, ∑ j ∈ Finset.range kH,
    kernel (i * kH + j) * dat ((x + kW - 1 - i) * H + (y + kH - 1 - j))

/-- The zero-padded data read of the FULL kernels: element `(xx, yy)` of an
`H × W` (rows × cols) column-major image, 0 outside. -/
def fullPad (dat : ℕ → ℚ) (H W : ℕ) (xx yy : ℤ) : ℚ :=
  if 0 ≤ xx ∧ xx < W ∧ 0 ≤ yy ∧ yy < H then dat (xx.toNat * H + yy.toNat) else 0

/-- The shared-memory data tile of `convn_full_kernel_with_shm`: the block
origin is shifted by `-(kW-1), -(kH-1)` and out-of-range slots are written
as 0 (zero padding), so no garbage survives. -/
def fullTile (rot180data : Bool) (dat : ℕ → ℚ)
    (H W : ℕ) (x0 y0 : ℤ) (HS : ℕ) (t : ℕ) : ℚ :=
  let xx := x0 + (t / HS : ℕ)
  let yy := y0 + (t % HS : ℕ)
  if 0 ≤ xx ∧ xx < W ∧ 0 ≤ yy ∧ yy < H then
    cond rot180data
      (dat (((W : ℤ) - 1 - xx).toNat * H + ((H : ℤ) - 1 - yy).toNat))
      (dat (xx.toNat * H + yy.toNat))
  else 0

/-- `convn_full_kernel_with_shm<rot180data, rot180kernel>`: the value of
output entry `(x, y)` after the launch (see `convn_valid_shm_entry` for
the block-shape convention); accumulates into `init`. -/
def convn_full_shm_entry (rot180data rot180kernel : Bool) (dat kernel : ℕ → ℚ)
    (fH fW H W kH kW bdx bdy : ℕ) (init : ℚ) (x y : ℕ) : ℚ :=
  if x < fW ∧ y < fH then
    init + ∑ i ∈ Finset.range kW, ∑ j ∈ Finset.range kH,
      load_kernel_into_shm rot180kernel kernel kH kW (i * kH + j) *
        fullTile rot180data dat H W
          ((x - x % bdx : ℕ) - ((kW : ℤ) - 1)) ((y - y % bdy : ℕ) - ((kH : ℤ) - 1))
          (bdy + kH - 1) ((x % bdx + i) * (bdy + kH - 1) + (y % bdy + j))
  else init

/-- `convn_full_kernel` (the direct, non-tiled FULL kernel): the value
written to output entry `(x, y)` for `x < fW`, `y < fH`:
`Σ_{i<kW, j<kH} kernel[i*kH+j] * data[x-i, y-j]`, skipping out-of-range
data coordinates. -/
def convn_full_entry (dat kernel : ℕ → ℚ) (H W kH kW : ℕ) (x y : ℕ) : ℚ :=
  ∑ i ∈ Finset.range kW, ∑ j ∈ Finset.range kH,
    if i ≤ x ∧ x - i < W ∧ j ≤ y ∧ y - j < H then
      kernel (i * kH + j) * dat ((x - i) * H + (y - j))
    else 0

/-- 180° rotation of a `kH × kW` column-major kernel, as a flat array. -/
def rot180 (kH kW : ℕ) (kernel : ℕ → ℚ) : ℕ → ℚ :=
  fun p => kernel ((kW - 1 - p / kH) * kH + (kH - 1 - p % kH))

/-- Spec-side definition (the claims' wording): VALID-mode cross-correlation
with neither operand rotated 180°:
`out(x,y) = Σ_{i<kW, j<kH} kernel[i,j] * data[x+i, y+j]`. -/
def specValidCorr (dat kernel : ℕ → ℚ) (H kH kW : ℕ) (x y : ℕ) : ℚ :=
  ∑ i ∈ Finset.range kW, ∑ j ∈ Finset.range kH,
    kernel (i * kH + j) * dat ((x + i) * H + (y + j))

/-! ### Matrices and the two layer types -/

/-- A device matrix (`device_matrix<float>`): column-major `rows × cols`
storage with an entry function from (row, column) to its exact value. -/
structure Mat where
  rows : ℕ
  cols : ℕ
  entry : ℕ → ℕ → ℚ

/-- `ConvolutionalLayer` state: kernels indexed `[input map][output map]`
(each a flat column-major `kH × kW` array), one bias per output map, the
kernel size and the input image size. -/
structure ConvLayer where
  nIn : ℕ
  nOut : ℕ
  kH : ℕ
  kW : ℕ
  H : ℕ
  W : ℕ
  ker : ℕ → ℕ → ℕ → ℚ
  bias : ℕ → ℚ

/-- Modelled from the spec: `get_output_img_size()` (declared outside the
sources) derives the output image rows as `input − kernel + 1`. -/
def ConvLayer.oH (L : ConvLayer) : ℕ := L.H + 1 - L.kH

/-- Modelled from the spec: output image cols = `input − kernel + 1`. -/
def ConvLayer.oW (L : ConvLayer) : ℕ := L.W + 1 - L.kW

/-- `get_input_img_size().area()`. -/
def ConvLayer.inArea (L : ConvLayer) : ℕ := L.H * L.W

/-- `get_output_img_size().area()`. -/
def ConvLayer.outArea (L : ConvLayer) : ℕ := L.oH * L.oW

/-- `ConvolutionalLayer::feedForward(fout, fin)`: `fout` is created as
`mat(bias) * mat(1, batch_size, 1.0f)` where the host `bias` column holds
`_bias[j]` at the pixels of map `j` (its one extra trailing entry is never
assigned by the loop; `hmatInit` is the value `host_matrix` construction
leaves there, that constructor being outside the sources); then for every
output map `j` and input map `i` a `convn_valid_kernel_with_shm<false,false>`
launch accumulates into map `j`'s region, z-grid batched over the batch
columns.  `bdx, bdy` are the thread-block shape of those launches (from
`ALLOCATE_GRIDS_AND_THREADS` / `getSuitableShmConfig`, the grid assumed to
cover the output) and `g` the initial shared-memory garbage. -/
def ConvLayer.feedForward (L : ConvLayer) (bdx bdy : ℕ) (g : ℕ → ℚ)
    (hmatInit : ℚ) (fin : Mat) : Mat :=
  { rows := L.outArea * L.nOut + 1
    cols := fin.cols
    entry := fun r b =>
      if r < L.outArea * L.nOut then
        let j := r / L.outArea
        let a := r % L.outArea
        (List.range L.nIn).foldl
          (fun acc i =>
            convn_valid_shm_entry false false g
              (fun p => fin.entry (i * L.inArea + p) b)
              (L.ker i j)
              L.oH L.oW L.H L.W L.kH L.kW bdx bdy acc (a / L.oH) (a % L.oH))
          (L.bias j)
      else hmatInit }

/-- `ConvolutionalLayer::feedBackward(error, delta)`: `error` is resized to
`img_in.area()*nInputs + 1` rows with explicit fill value `0.`, then for
every input map `i` and output map `j` a
`convn_full_kernel_with_shm<false,true>` launch accumulates into map `i`'s
region, z-grid batched over the batch columns. -/
def ConvLayer.feedBackward (L : ConvLayer) (bdx bdy : ℕ) (delta : Mat) : Mat :=
  { rows := L.inArea * L.nIn + 1
    cols := delta.cols
    entry := fun r b =>
      if r < L.inArea * L.nIn then
        let i := r / L.inArea
        let a := r % L.inArea
        (List.range L.nOut).foldl
          (fun acc j =>
            convn_full_shm_entry false true
              (fun p => delta.entry (j * L.outArea + p) b)
              (L.ker i j)
              L.H L.W L.oH L.oW L.kH L.kW bdx bdy acc (a / L.H) (a % L.H))
          0
      else 0 }

/-! ### Pooling kernels and the SubSamplingLayer -/

/-- `downsample_kernel` (value level): the value written at flat dst index
`r = z*h*w + y*h + x` (`z` the grid z index, `(x, y)` the thread's pooled
coordinates, `h = H/scale`, `w = W/scale`), with `scale`, `H`, `W` exactly
as the kernel receives them: the mean of the `scale×scale` source block,
out-of-range source pixels contributing 0 and the denominator always
`scale²`. -/
def downsample_entry (src : ℕ → ℚ) (scale H W : ℕ) (r : ℕ) : ℚ :=
  let h := H / scale
  let w := W / scale
  let z := r / (h * w)
  let y := r % (h * w) / h
  let x := r % (h * w) % h
  (∑ i ∈ Finset.range scale, ∑ j ∈ Finset.range scale,
      if y * scale + i < W ∧ x * scale + j < H then
        src (z * (H * W) + (y * scale + i) * H + (x * scale + j))
      else 0) / ((scale : ℚ) * scale)

/-- `upsample_kernel`'s source row coordinate for output row `x`:
`sx = x / scale` with `scale = H / h`, then the uint8 clamp
`if (sx == h) --sx;` (the decrement wraps modulo 256). -/
def upsample_sx (h H x : ℕ) : ℕ :=
  let sx := x / (H / h)
  if sx = h then (sx + 255) % 256 else sx

/-- `upsample_kernel`'s source column coordinate for output column `y`
(the same `scale = H / h` is used for both axes). -/
def upsample_sy (h w H y : ℕ) : ℕ :=
  let sy := y / (H / h)
  if sy = w then (sy + 255) % 256 else sy

/-- The flat src offset `sy * h + sx` read by the upsample thread for
output pixel `(x, y)`. -/
def upsample_src_index (h w H x y : ℕ) : ℕ :=
  upsample_sy h w H y * h + upsample_sx h H x

/-- `upsample_kernel` (value level): the value written at flat dst index
`r = z*H*W + y*H + x`, reading slice `z` of the pooled `h × w` source. -/
def upsample_entry (src : ℕ → ℚ) (h w H W : ℕ) (r : ℕ) : ℚ :=
  let z := r / (H * W)
  let y := r % (H * W) / H
  let x := r % (H * W) % H
  src (z * (h * w) + upsample_src_index h w H x y)

/-- `SubSamplingLayer` state: map count (`getNumInputMaps()` =
`getNumOutputMaps()`), the integer pooling scale, and the input image
size. -/
structure SubLayer where
  maps : ℕ
  scale : ℕ
  H : ℕ
  W : ℕ

/-- Modelled from the spec: SubSamplingLayer `get_output_img_size()` rows
= input rows / scale (integer division). -/
def SubLayer.h (S : SubLayer) : ℕ := S.H / S.scale

/-- Modelled from the spec: output cols = input cols / scale. -/
def SubLayer.w (S : SubLayer) : ℕ := S.W / S.scale

/-- `SubSamplingLayer::feedForward(fout, fin)`: `fout` is resized to
`img_out.area() * maps + 1` rows (`rdef` is the `device_matrix::resize`
default fill value, that default being declared outside the sources), and
per batch column the downsample kernel is launched with z-grid over the
maps, passing `_scale, img_in.m, img_in.n` as `uint8_t` — i.e. reduced
modulo 256.  Entries the kernel's threads never write keep the fill. -/
def SubLayer.feedForward (S : SubLayer) (rdef : ℚ) (fin : Mat) : Mat :=
  { rows := S.h * S.w * S.maps + 1
    cols := fin.cols
    entry := fun r b =>
      let s' := S.scale % 256
      let H' := S.H % 256
      let W' := S.W % 256
      if 0 < H' / s' * (W' / s') ∧ r < S.maps * (H' / s' * (W' / s')) then
        downsample_entry (fun p => fin.entry p b) s' H' W' r
      else rdef }

/-- `SubSamplingLayer::feedBackward(error, delta)`: `error` is resized to
`img_in.area() * maps + 1` rows (fill `rdef`, the resize default), per
batch column the upsample kernel is launched with z-grid over the maps,
passing `img_out.m, img_out.n, img_in.m, img_in.n` as `uint8_t` (mod 256),
and finally the whole matrix is scaled by `1.0f / (_scale * _scale)`. -/
def SubLayer.feedBackward (S : SubLayer) (rdef : ℚ) (delta : Mat) : Mat :=
  { rows := S.H * S.W * S.maps + 1
    cols := delta.cols
    entry := fun r b =>
      let h' := S.h % 256
      let w' := S.w % 256
      let H' := S.H % 256
      let W' := S.W % 256
      (if 0 < H' * W' ∧ r < S.maps * (H' * W') then
        upsample_entry (fun p => delta.entry p b) h' w' H' W' r
      else rdef) * (1 / ((S.scale : ℚ) * S.scale)) }

/-! ### Equivalence of the tiled and direct kernels -/

theorem mulAdd_div {n A B : ℕ} (h : B < n) : (A * n + B) / n = A := by
  rw [mul_comm, Nat.mul_add_div (by omega : 0 < n), Nat.div_eq_of_lt h, Nat.add_zero]

theorem mulAdd_mod {n A B : ℕ} (h : B < n) : (A * n + B) % n = B := by
  rw [mul_comm, Nat.mul_add_mod, Nat.mod_eq_of_lt h]

/-- Cross-correlation against a 180°-rotated kernel is exactly the direct
VALID convolution kernel's formula. -/
theorem specValidCorr_rot180 (dat K' : ℕ → ℚ) (H kH kW x y : ℕ) :
    specValidCorr dat K' H kH kW x y
      = convn_valid_entry dat (rot180 kH kW K') H kH kW x y := by
  unfold specValidCorr convn_valid_entry
  refine Eq.symm ?_
  calc
    (∑ i ∈ Finset.range kW, ∑ j ∈ Finset.range kH,
        rot180 kH kW K' (i * kH + j) * dat ((x + kW - 1 - i) * H + (y + kH - 1 - j)))
        = ∑ i ∈ Finset.range kW, ∑ j ∈ Finset.range kH,
            K' ((kW - 1 - i) * kH + (kH - 1 - j)) *
              dat ((x + (kW - 1 - i)) * H + (y + (kH - 1 - j))) := by
          refine Finset.sum_congr rfl fun i hi => Finset.sum_congr rfl fun j hj => ?_
          simp only [Finset.mem_range] at hi hj
          unfold rot180
          rw [mulAdd_div hj, mulAdd_mod hj,
            show x + kW - 1 - i = x + (kW - 1 - i) from by omega,
            show y + kH - 1 - j = y + (kH - 1 - j) from by omega]
    _ = ∑ i ∈ Finset.range kW, ∑ j ∈ Finset.range kH,
            K' ((kW - 1 - i) * kH + j) * dat ((x + (kW - 1 - i)) * H + (y + j)) :=
          Finset.sum_congr rfl fun i _ =>
            Finset.sum_range_reflect
              (fun j => K' ((kW - 1 - i) * kH + j) * dat ((x + (kW - 1 - i)) * H + (y + j))) kH
    _ = ∑ i ∈ Finset.range kW, ∑ j ∈ Finset.range kH,
            K' (i * kH + j) * dat ((x + i) * H + (y + j)) :=
          Finset.sum_range_reflect
            (fun a => ∑ j ∈ Finset.range kH, K' (a * kH + j) * dat ((x + a) * H + (y + j))) kW

/-- The tiled VALID kernel with `rot180data=false, rot180kernel=false`
computes, at every in-range output pixel, the cross-correlation of the data
against the 180°-rotated kernel (accumulated onto `init`), independently of
the garbage `g` left in unwritten shared-memory slots. -/
theorem convn_valid_shm_eval (g dat kernel : ℕ → ℚ)
    (H W kH kW bdx bdy vH vW : ℕ) (init : ℚ) (x y : ℕ)
    (hbx : 1 ≤ bdx) (hby : 1 ≤ bdy)
    (hvH : vH + kH = H + 1) (hvW : vW + kW = W + 1)
    (hx : x < vW) (hy : y < vH) :
    convn_valid_shm_entry false false g dat kernel vH vW H W kH kW bdx bdy init x y
      = init + specValidCorr dat (rot180 kH kW kernel) H kH kW x y := by
  unfold convn_valid_shm_entry specValidCorr
  rw [if_pos ⟨hx, hy⟩]
  congr 1
  refine Finset.sum_congr rfl fun i hi => Finset.sum_congr rfl fun j hj => ?_
  simp only [Finset.mem_range] at hi hj
  have hmodx : x % bdx ≤ x := Nat.mod_le x bdx
  have hmody : y % bdy ≤ y := Nat.mod_le y bdy
  have hby2 : y % bdy < bdy := Nat.mod_lt _ hby
  have hHS : y % bdy + j < bdy + kH - 1 := by omega
  simp only [load_kernel_into_shm, validTile, rot180, cond_false]
  rw [mulAdd_div hHS, mulAdd_mod hHS, mulAdd_div hj, mulAdd_mod hj]
  have e1 : x % bdx + i + (x - x % bdx) = x + i := by omega
  have e2 : y % bdy + j + (y - y % bdy) = y + j := by omega
  rw [e1, e2]
  have hcond : x + i < W ∧ y + j < H := by omega
  rw [if_pos hcond]

/-- Rotating a kernel 180° twice restores every in-range slot. -/
theorem convn_valid_entry_rotrot (dat K : ℕ → ℚ) (H kH kW x y : ℕ) :
    convn_valid_entry dat (rot180 kH kW (rot180 kH kW K)) H kH kW x y
      = convn_valid_entry dat K H kH kW x y := by
  unfold convn_valid_entry
  refine Finset.sum_congr rfl fun i hi => Finset.sum_congr rfl fun j hj => ?_
  simp only [Finset.mem_range] at hi hj
  unfold rot180
  rw [mulAdd_div hj, mulAdd_mod hj]
  have hj2 : kH - 1 - j < kH := by omega
  rw [mulAdd_div hj2, mulAdd_mod hj2,
    show kW - 1 - (kW - 1 - i) = i from by omega,
    show kH - 1 - (kH - 1 - j) = j from by omega]

/-- Corollary: the tiled VALID kernel `<false,false>` agrees with the
direct `convn_valid_kernel` at every in-range output pixel. -/
theorem convn_valid_shm_direct (g dat kernel : ℕ → ℚ)
    (H W kH kW bdx bdy vH vW : ℕ) (init : ℚ) (x y : ℕ)
    (hbx : 1 ≤ bdx) (hby : 1 ≤ bdy)
    (hvH : vH + kH = H + 1) (hvW : vW + kW = W + 1)
    (hx : x < vW) (hy : y < vH) :
    convn_valid_shm_entry false false g dat kernel vH vW H W kH kW bdx bdy init x y
      = init + convn_valid_entry dat kernel H kH kW x y := by
  rw [convn_valid_shm_eval g dat kernel H W kH kW bdx bdy vH vW init x y
        hbx hby hvH hvW hx hy,
      specValidCorr_rot180, convn_valid_entry_rotrot]

/-- The tiled FULL kernel (with unrotated data) evaluates, at every
in-range output pixel, to the sum over the kernel window of the loaded
kernel value times the zero-padded data read at `(x+i-(kW-1), y+j-(kH-1))`. -/
theorem convn_full_shm_eval (rotk : Bool) (dat kernel : ℕ → ℚ)
    (H W kH kW bdx bdy fH fW : ℕ) (init : ℚ) (x y : ℕ)
    (hbx : 1 ≤ bdx) (hby : 1 ≤ bdy) (hx : x < fW) (hy : y < fH) :
    convn_full_shm_entry false rotk dat kernel fH fW H W kH kW bdx bdy init x y
      = init + ∑ i ∈ Finset.range kW, ∑ j ∈ Finset.range kH,
          load_kernel_into_shm rotk kernel kH kW (i * kH + j) *
            fullPad dat H W ((x : ℤ) + i - ((kW : ℤ) - 1))
              ((y : ℤ) + j - ((kH : ℤ) - 1)) := by
  unfold convn_full_shm_entry
  rw [if_pos ⟨hx, hy⟩]
  congr 1
  refine Finset.sum_congr rfl fun i hi => Finset.sum_congr rfl fun j hj => ?_
  simp only [Finset.mem_range] at hi hj
  have hmodx : x % bdx ≤ x := Nat.mod_le x bdx
  have hmody : y % bdy ≤ y := Nat.mod_le y bdy
  have hby2 : y % bdy < bdy := Nat.mod_lt _ hby
  have hHS : y % bdy + j < bdy + kH - 1 := by omega
  simp only [fullTile, fullPad, cond_false]
  rw [mulAdd_div hHS, mulAdd_mod hHS]
  have e1 : ((x - x % bdx : ℕ) : ℤ) - ((kW : ℤ) - 1) + ((x % bdx + i : ℕ) : ℤ)
      = (x : ℤ) + i - ((kW : ℤ) - 1) := by
    push_cast [Nat.cast_sub hmodx]
    omega
  have e2 : ((y - y % bdy : ℕ) : ℤ) - ((kH : ℤ) - 1) + ((y % bdy + j : ℕ) : ℤ)
      = (y : ℤ) + j - ((kH : ℤ) - 1) := by
    push_cast [Nat.cast_sub hmody]
    omega
  rw [e1, e2]

/-- The window sum against zero-padded data equals the direct FULL kernel's
formula with the 180°-rotated kernel. -/
theorem fullPad_sum_rot180 (dat K' : ℕ → ℚ) (H W kH kW x y : ℕ) :
    (∑ i ∈ Finset.range kW, ∑ j ∈ Finset.range kH,
        K' (i * kH + j) *
          fullPad dat H W ((x : ℤ) + i - ((kW : ℤ) - 1)) ((y : ℤ) + j - ((kH : ℤ) - 1)))
      = convn_full_entry dat (rot180 kH kW K') H W kH kW x y := by
  unfold convn_full_entry
  refine Eq.symm ?_
  calc
    (∑ i ∈ Finset.range kW, ∑ j ∈ Finset.range kH,
        if i ≤ x ∧ x - i < W ∧ j ≤ y ∧ y - j < H then
          rot180 kH kW K' (i * kH + j) * dat ((x - i) * H + (y - j))
        else 0)
        = ∑ i ∈ Finset.range kW, ∑ j ∈ Finset.range kH,
            K' ((kW - 1 - i) * kH + (kH - 1 - j)) *
              fullPad dat H W ((x : ℤ) + ((kW - 1 - i : ℕ) : ℤ) - ((kW : ℤ) - 1))
                ((y : ℤ) + ((kH - 1 - j : ℕ) : ℤ) - ((kH : ℤ) - 1)) := by
          refine Finset.sum_congr rfl fun i hi => Finset.sum_congr rfl fun j hj => ?_
          simp only [Finset.mem_range] at hi hj
          unfold rot180 fullPad
          rw [mulAdd_div hj, mulAdd_mod hj]
          have e1 : (x : ℤ) + ((kW - 1 - i : ℕ) : ℤ) - ((kW : ℤ) - 1) = (x : ℤ) - i := by
            omega
          have e2 : (y : ℤ) + ((kH - 1 - j : ℕ) : ℤ) - ((kH : ℤ) - 1) = (y : ℤ) - j := by
            omega
          rw [e1, e2, mul_ite, mul_zero]
          refine if_congr (by omega) ?_ rfl
          rw [show ((x : ℤ) - (i : ℤ)).toNat = x - i from by omega,
            show ((y : ℤ) - (j : ℤ)).toNat = y - j from by omega]
    _ = ∑ i ∈ Finset.range kW, ∑ j ∈ Finset.range kH,
            K' ((kW - 1 - i) * kH + j) *
              fullPad dat H W ((x : ℤ) + ((kW - 1 - i : ℕ) : ℤ) - ((kW : ℤ) - 1))
                ((y : ℤ) + (j : ℤ) - ((kH : ℤ) - 1)) :=
          Finset.sum_congr rfl fun i _ =>
            Finset.sum_range_reflect
              (fun j => K' ((kW - 1 - i) * kH + j) *
                fullPad dat H W ((x : ℤ) + ((kW - 1 - i : ℕ) : ℤ) - ((kW : ℤ) - 1))
                  ((y : ℤ) + (j : ℤ) - ((kH : ℤ) - 1))) kH
    _ = ∑ i ∈ Finset.range kW, ∑ j ∈ Finset.range kH,
            K' (i * kH + j) *
              fullPad dat H W ((x : ℤ) + (i : ℤ) - ((kW : ℤ) - 1))
                ((y : ℤ) + (j : ℤ) - ((kH : ℤ) - 1)) :=
          Finset.sum_range_reflect
            (fun a => ∑ j ∈ Finset.range kH,
              K' (a * kH + j) *
                fullPad dat H W ((x : ℤ) + (a : ℤ) - ((kW : ℤ) - 1))
                  ((y : ℤ) + (j : ℤ) - ((kH : ℤ) - 1))) kW

/-- The tiled FULL kernel `<false,true>` (kernel copied unrotated into
shared memory) computes the direct FULL convolution against the
180°-rotated kernel — the backpropagation form. -/
theorem convn_full_shm_true (dat kernel : ℕ → ℚ)
    (H W kH kW bdx bdy fH fW : ℕ) (init : ℚ) (x y : ℕ)
    (hbx : 1 ≤ bdx) (hby : 1 ≤ bdy) (hx : x < fW) (hy : y < fH) :
    convn_full_shm_entry false true dat kernel fH fW H W kH kW bdx bdy init x y
      = init + convn_full_entry dat (rot180 kH kW kernel) H W kH kW x y := by
  rw [convn_full_shm_eval true dat kernel H W kH kW bdx bdy fH fW init x y hbx hby hx hy]
  congr 1
  rw [← fullPad_sum_rot180]
  refine Finset.sum_congr rfl fun i _ => Finset.sum_congr rfl fun j _ => ?_
  simp only [load_kernel_into_shm, cond_true]

/-- The tiled FULL kernel `<false,false>` agrees with the direct
`convn_full_kernel` at every in-range output pixel. -/
theorem convn_full_shm_direct (dat kernel : ℕ → ℚ)
    (H W kH kW bdx bdy fH fW : ℕ) (init : ℚ) (x y : ℕ)
    (hbx : 1 ≤ bdx) (hby : 1 ≤ bdy) (hx : x < fW) (hy : y < fH) :
    convn_full_shm_entry false false dat kernel fH fW H W kH kW bdx bdy init x y
      = init + convn_full_entry dat kernel H W kH kW x y := by
  rw [convn_full_shm_eval false dat kernel H W kH kW bdx bdy fH fW init x y hbx hby hx hy]
  congr 1
  have h1 : (∑ i ∈ Finset.range kW, ∑ j ∈ Finset.range kH,
      load_kernel_into_shm false kernel kH kW (i * kH + j) *
        fullPad dat H W ((x : ℤ) + i - ((kW : ℤ) - 1)) ((y : ℤ) + j - ((kH : ℤ) - 1)))
      = ∑ i ∈ Finset.range kW, ∑ j ∈ Finset.range kH,
          rot180 kH kW kernel (i * kH + j) *
            fullPad dat H W ((x : ℤ) + i - ((kW : ℤ) - 1)) ((y : ℤ) + j - ((kH : ℤ) - 1)) := by
    refine Finset.sum_congr rfl fun i _ => Finset.sum_congr rfl fun j _ => ?_
    simp only [load_kernel_into_shm, rot180, cond_false]
  rw [h1, fullPad_sum_rot180]
  unfold convn_full_entry
  refine Finset.sum_congr rfl fun i hi => Finset.sum_congr rfl fun j hj => ?_
  simp only [Finset.mem_range] at hi hj
  refine if_congr Iff.rfl ?_ rfl
  unfold rot180
  rw [mulAdd_div hj, mulAdd_mod hj]
  have hj2 : kH - 1 - j < kH := by omega
  rw [mulAdd_div hj2, mulAdd_mod hj2,
    show kW - 1 - (kW - 1 - i) = i from by omega,
    show kH - 1 - (kH - 1 - j) = j from by omega]

/-! ### Host-side accumulation loops -/

/-- A left fold of additive contributions equals the initial value plus
the sum of the contributions (the host loops launch one accumulating
kernel per map). -/
theorem foldl_add_range (T : ℕ → ℚ) (n : ℕ) (init : ℚ) :
    (List.range n).foldl (fun a i => a + T i) init
      = init + ∑ i ∈ Finset.range n, T i := by
  induction n with
  | zero => simp
  | succ n ih =>
    rw [List.range_succ, List.foldl_append, ih, Finset.sum_range_succ]
    simp [add_assoc]

/-! ### Claim theorems -/

/-- C1 counterexample: `convn` on boundary mode `SAME_SHM` does not raise
an error — it returns normally (`.ok`), with no convolution kernel
launched (`launched = none`), refuting the claim that such calls raise a
fatal runtime error and never return normally. -/
theorem convn_same_shm_returns_normally :
    convn ⟨4, 4⟩ ⟨2, 2⟩ SAME_SHM = .ok ⟨⟨4, 4⟩, none⟩ := rfl

/-- C1 (amended): for every data/kernel size, a `convn` call with mode
`SAME_SHM`, `VALID_SHM` or `FULL_SHM` reaches a `// TODO` placeholder
branch that launches nothing: the call returns normally with the allocated
output of the mode's nominal size and no kernel launched; no error is
raised on these modes. -/
theorem convn_shm_modes_silently_noop (d k : SZ) :
    convn d k SAME_SHM = .ok ⟨d, none⟩ ∧
    convn d k VALID_SHM = .ok ⟨SZ.maxS ((d.sub k).addC 1) ⟨0, 0⟩, none⟩ ∧
    convn d k FULL_SHM = .ok ⟨(d.add k).addC (-1), none⟩ :=
  ⟨rfl, rfl, rfl⟩

/-- C6: the convolution output size is the data size for SAME/SAME_SHM,
the clamped `max(data - kernel + 1, (0,0))` for VALID/VALID_SHM,
`data + kernel - 1` for FULL/FULL_SHM; `get_convn_size` raises the fatal
unknown-type error on every other mode value; and `convn`, whenever it
returns a matrix, has allocated it with exactly the size `get_convn_size`
returns. -/
theorem get_convn_size_spec (d k : SZ) :
    get_convn_size d k SAME = .ok d ∧
    get_convn_size d k SAME_SHM = .ok d ∧
    get_convn_size d k VALID = .ok (SZ.maxS ((d.sub k).addC 1) ⟨0, 0⟩) ∧
    get_convn_size d k VALID_SHM = .ok (SZ.maxS ((d.sub k).addC 1) ⟨0, 0⟩) ∧
    get_convn_size d k FULL = .ok ((d.add k).addC (-1)) ∧
    get_convn_size d k FULL_SHM = .ok ((d.add k).addC (-1)) ∧
    (∀ t, FULL_SHM < t →
      get_convn_size d k t = .error "Unknown type of convolution.") ∧
    (∀ t r, convn d k t = .ok r → get_convn_size d k t = .ok r.outSize) := by
  refine ⟨rfl, rfl, rfl, rfl, rfl, rfl, ?_, ?_⟩
  · intro t ht
    simp only [FULL_SHM] at ht
    unfold get_convn_size
    rw [if_neg (by simp [SAME, SAME_SHM]; omega),
      if_neg (by simp [VALID, VALID_SHM]; omega),
      if_neg (by simp [FULL, FULL_SHM]; omega)]
  · intro t r h
    cases hg : get_convn_size d k t with
    | error e =>
      unfold convn at h
      rw [hg] at h
      exact absurd h (by simp)
    | ok s =>
      unfold convn at h
      rw [hg] at h
      split_ifs at h <;>
        first
          | (cases h; rfl)
          | exact absurd h (by simp)

/-- C6 witness: instantiation of the hypothesis-bearing conjuncts at a
concrete input. -/
theorem get_convn_size_spec_witness :
    get_convn_size ⟨4, 4⟩ ⟨2, 2⟩ 7 = .error "Unknown type of convolution." ∧
    get_convn_size ⟨4, 4⟩ ⟨2, 2⟩ VALID = .ok ⟨3, 3⟩ :=
  ⟨(get_convn_size_spec ⟨4, 4⟩ ⟨2, 2⟩).2.2.2.2.2.2.1 7 (by norm_num [FULL_SHM]),
   ((get_convn_size_spec ⟨4, 4⟩ ⟨2, 2⟩).2.2.2.2.2.2.2 VALID ⟨⟨3, 3⟩, some .valid⟩
      rfl).trans (by rfl)⟩

/-- The shrinking loop stops only when the footprint fits the budget or
the block has fewer than 32 threads. -/
theorem shmLoop_stops (gx gy tx ty kH kW : ℕ) :
    shmSize (shmLoop gx gy tx ty kH kW).2.2.1 (shmLoop gx gy tx ty kH kW).2.2.2 kH kW
        ≤ MAX_SHARED_MEMORY_SIZE ∨
      (shmLoop gx gy tx ty kH kW).2.2.1 * (shmLoop gx gy tx ty kH kW).2.2.2 < 32 := by
  induction gx, gy, tx, ty, kH, kW using shmLoop.induct with
  | case1 gx gy tx ty kH kW h hge ih =>
    rw [shmLoop, dif_pos h, if_pos hge]
    exact ih
  | case2 gx gy tx ty kH kW h hlt ih =>
    rw [shmLoop, dif_pos h, if_neg hlt]
    exact ih
  | case3 gx gy tx ty kH kW h =>
    rw [shmLoop, dif_neg h]
    simp only
    omega

/-- C5 (amended): `getSuitableShmConfig` halves the larger block axis
(doubling the grid axis) while the footprint exceeds the 48*1024-byte
budget *and* the block still has at least 32 threads — so a 32-thread
block is halved once more and the final block may have fewer than 32
threads.  On normal return the byte count equals
`(kW*kH + (threads.x+kW-1)*(threads.y+kH-1))*sizeof(float)` for the final
block shape and is at most the budget; if the footprint still exceeds the
budget after shrinkage (which entails the final block has fewer than 32
threads) the over-budget fatal error reporting that size is raised. -/
theorem getSuitableShmConfig_spec (gx gy tx ty kH kW : ℕ) :
    (∀ out, getSuitableShmConfig gx gy tx ty kH kW = .ok out →
        out.2 = shmSize out.1.2.2.1 out.1.2.2.2 kH kW ∧
          out.2 ≤ MAX_SHARED_MEMORY_SIZE) ∧
    (∀ err, getSuitableShmConfig gx gy tx ty kH kW = .error err →
        err.2.2.2.2 = shmSize err.2.2.1 err.2.2.2.1 kH kW ∧
          MAX_SHARED_MEMORY_SIZE < err.2.2.2.2 ∧
          err.2.2.1 * err.2.2.2.1 < 32) := by
  have hstop := shmLoop_stops gx gy tx ty kH kW
  rcases hL : shmLoop gx gy tx ty kH kW with ⟨gx0, gy0, tx0, ty0⟩
  rw [hL] at hstop
  unfold getSuitableShmConfig
  rw [hL]
  simp only
  constructor
  · intro out h
    split_ifs at h with hc
    all_goals cases h
    dsimp only
    exact ⟨rfl, by omega⟩
  · intro err h
    split_ifs at h with hc
    all_goals cases h
    dsimp only at hstop ⊢
    refine ⟨rfl, hc, ?_⟩
    rcases hstop with h1 | h1
    · exact absurd h1 (by omega)
    · exact h1

/-- C5 counterexample: with requested block (32, 1) and kernel 110×45 the
loop runs once (the 32-thread guard passes), halving the block to (16, 1)
— 16 threads, below the claimed minimum of 32 — and then returns
normally: the claim that the block is never shrunk below 32 threads is
false. -/
theorem getSuitableShmConfig_shrinks_below_32 :
    getSuitableShmConfig 1 1 32 1 110 45 = .ok ((2, 1, 16, 1), 46200) ∧
      16 * 1 < 32 := by
  constructor
  · unfold getSuitableShmConfig
    rw [show shmLoop 1 1 32 1 110 45 = (2, 1, 16, 1) from by
      rw [shmLoop]
      norm_num [shmSize, MAX_SHARED_MEMORY_SIZE]
      rw [shmLoop]
      norm_num [shmSize, MAX_SHARED_MEMORY_SIZE]]
    norm_num [shmSize, MAX_SHARED_MEMORY_SIZE]
  · norm_num

/-- C5 witness: a request that fits the budget immediately is returned
unchanged with the exact footprint 4660 = (9 + 34*34)*4 bytes. -/
theorem getSuitableShmConfig_spec_witness :
    4660 = shmSize 32 32 3 3 ∧ 4660 ≤ MAX_SHARED_MEMORY_SIZE := by
  have h := (getSuitableShmConfig_spec 1 1 32 32 3 3).1 ((1, 1, 32, 32), 4660) ?_
  · exact h
  · unfold getSuitableShmConfig
    rw [show shmLoop 1 1 32 32 3 3 = (1, 1, 32, 32) from by
      rw [shmLoop]
      norm_num [shmSize, MAX_SHARED_MEMORY_SIZE]]
    norm_num [shmSize, MAX_SHARED_MEMORY_SIZE]

/-- C4 (amended): every matrix the four layer operations produce has
exactly one trailing row beyond the concatenated map pixels (row count =
map area × map count + 1), re-established by every resize — but the
trailing row holds the fill value rather than the constant 1: in
`ConvolutionalLayer::feedBackward` the resize explicitly fills with `0.`
and no kernel launch writes the trailing row, so there it holds 0 in
every column. -/
theorem layer_matrices_trailing_row (L : ConvLayer) (S : SubLayer)
    (bdx bdy : ℕ) (g : ℕ → ℚ) (hmatInit rdef : ℚ) (fin delta fin2 delta2 : Mat) :
    (L.feedForward bdx bdy g hmatInit fin).rows = L.outArea * L.nOut + 1 ∧
    (L.feedBackward bdx bdy delta).rows = L.inArea * L.nIn + 1 ∧
    (S.feedForward rdef fin2).rows = S.h * S.w * S.maps + 1 ∧
    (S.feedBackward rdef delta2).rows = S.H * S.W * S.maps + 1 ∧
    (∀ b, (L.feedBackward bdx bdy delta).entry (L.inArea * L.nIn) b = 0) := by
  refine ⟨rfl, rfl, rfl, rfl, fun b => ?_⟩
  simp [ConvLayer.feedBackward]

/-- C4 counterexample: a concrete `ConvolutionalLayer::feedBackward`
(1 input map, 1 output map, 1×1 kernel and image, batch 1): the produced
upstream error matrix's trailing row holds 0, not the constant 1 the claim
asserts. -/
theorem feedBackward_trailing_row_zero :
    (ConvLayer.feedBackward ⟨1, 1, 1, 1, 1, 1, fun _ _ _ => 1, fun _ => 0⟩ 32 32
        ⟨2, 1, fun _ _ => 1⟩).entry 1 0 = 0 ∧ (0 : ℚ) ≠ 1 := by
  constructor
  · simp [ConvLayer.feedBackward, ConvLayer.inArea]
  · norm_num

/-- C2 (amended): `ConvolutionalLayer::feedForward` produces, for the
entry `r = j·outArea + a` of output map `j` and each batch column `b`,
the bias `bias_j` plus the sum over input maps `i` of the VALID
**convolution** of input map `i` with `kernel[i][j]` (the direct VALID
kernel's formula) — equivalently, per the second conjunct, the VALID
cross-correlation with the kernel rotated 180°.  It is not the unrotated
cross-correlation the claim states: with `rot180kernel=false` the tiled
kernel's shared-memory load stores the kernel flipped. -/
theorem feedForward_formula (L : ConvLayer) (bdx bdy : ℕ) (g : ℕ → ℚ)
    (hmatInit : ℚ) (fin : Mat) (r b : ℕ)
    (hbx : 1 ≤ bdx) (hby : 1 ≤ bdy)
    (hkH : L.kH ≤ L.H) (hkW : L.kW ≤ L.W)
    (hr : r < L.outArea * L.nOut) :
    ((L.feedForward bdx bdy g hmatInit fin).entry r b
      = L.bias (r / L.outArea)
        + ∑ i ∈ Finset.range L.nIn,
            convn_valid_entry (fun p => fin.entry (i * L.inArea + p) b)
              (L.ker i (r / L.outArea)) L.H L.kH L.kW
              (r % L.outArea / L.oH) (r % L.outArea % L.oH)) ∧
    (∀ i,
      convn_valid_entry (fun p => fin.entry (i * L.inArea + p) b)
          (L.ker i (r / L.outArea)) L.H L.kH L.kW
          (r % L.outArea / L.oH) (r % L.outArea % L.oH)
        = specValidCorr (fun p => fin.entry (i * L.inArea + p) b)
            (rot180 L.kH L.kW (L.ker i (r / L.outArea))) L.H L.kH L.kW
            (r % L.outArea / L.oH) (r % L.outArea % L.oH)) := by
  have hApos : 0 < L.outArea := by
    rcases Nat.eq_zero_or_pos L.outArea with h0 | h
    · rw [h0, Nat.zero_mul] at hr
      exact absurd hr (Nat.not_lt_zero r)
    · exact h
  have hA : 0 < L.oH * L.oW := by
    have h := hApos
    rwa [ConvLayer.outArea] at h
  have hoH : 0 < L.oH := by
    rcases Nat.eq_zero_or_pos L.oH with h0 | h
    · rw [h0, Nat.zero_mul] at hA
      exact absurd hA (by omega)
    · exact h
  have hoW : 0 < L.oW := by
    rcases Nat.eq_zero_or_pos L.oW with h0 | h
    · rw [h0, Nat.mul_zero] at hA
      exact absurd hA (by omega)
    · exact h
  constructor
  · have hvH : L.oH + L.kH = L.H + 1 := by
      unfold ConvLayer.oH
      omega
    have hvW : L.oW + L.kW = L.W + 1 := by
      unfold ConvLayer.oW
      omega
    have hx : r % L.outArea / L.oH < L.oW := by
      have ha : r % L.outArea < L.oH * L.oW := by
        have h := Nat.mod_lt r hApos
        rwa [ConvLayer.outArea] at h
      exact (Nat.div_lt_iff_lt_mul hoH).2 (by rwa [Nat.mul_comm] at ha)
    have hy : r % L.outArea % L.oH < L.oH := Nat.mod_lt _ hoH
    unfold ConvLayer.feedForward
    dsimp only
    rw [if_pos hr,
      List.foldl_ext _
        (fun acc i => acc + convn_valid_entry
          (fun p => fin.entry (i * L.inArea + p) b) (L.ker i (r / L.outArea))
          L.H L.kH L.kW (r % L.outArea / L.oH) (r % L.outArea % L.oH))
        (L.bias (r / L.outArea))
        (fun acc i _ =>
          convn_valid_shm_direct g _ _ L.H L.W L.kH L.kW bdx bdy L.oH L.oW acc
            (r % L.outArea / L.oH) (r % L.outArea % L.oH) hbx hby hvH hvW hx hy),
      foldl_add_range]
  · intro i
    exact ((specValidCorr_rot180 _ (rot180 L.kH L.kW (L.ker i (r / L.outArea)))
        L.H L.kH L.kW _ _).trans
      (convn_valid_entry_rotrot _ _ L.H L.kH L.kW _ _)).symm

/-- C2 counterexample: 1 input map, 1 output map, a 1×2 kernel `[1, 2]`
over a 1×2 image `[3, 5]`, bias 0, batch 1.  The code computes the VALID
convolution `2·3 + 1·5 = 11`, whereas the claim's unrotated
cross-correlation gives `1·3 + 2·5 = 13`. -/
theorem feedForward_not_unrotated_correlation :
    ((ConvLayer.feedForward ⟨1, 1, 1, 2, 1, 2, fun _ _ p => if p = 0 then 1 else 2, fun _ => 0⟩
        32 32 (fun _ => 0) 0
        ⟨3, 1, fun r _ => if r = 0 then 3 else if r = 1 then 5 else 1⟩).entry 0 0 = 11) ∧
    ((0 : ℚ) + specValidCorr (fun p => if p = 0 then (3 : ℚ) else if p = 1 then 5 else 1)
        (fun p => if p = 0 then 1 else 2) 1 1 2 0 0 = 13) ∧
    (11 : ℚ) ≠ 13 := by
  refine ⟨?_, ?_, by norm_num⟩
  · norm_num [ConvLayer.feedForward, ConvLayer.outArea, ConvLayer.inArea, ConvLayer.oH,
      ConvLayer.oW, convn_valid_shm_entry, load_kernel_into_shm, validTile,
      List.range_succ, Finset.sum_range_succ]
  · norm_num [specValidCorr, Finset.sum_range_succ]

/-- C2 witness: the amended formula at a concrete layer (1×1 kernel of
value 2, bias 3, input pixel 7): output = 3 + 2·7 = 17. -/
theorem feedForward_formula_witness :
    (ConvLayer.feedForward ⟨1, 1, 1, 1, 1, 1, fun _ _ _ => 2, fun _ => 3⟩ 32 32
        (fun _ => 0) 0 ⟨2, 1, fun r _ => if r = 0 then 7 else 1⟩).entry 0 0 = 17 := by
  have h := (feedForward_formula ⟨1, 1, 1, 1, 1, 1, fun _ _ _ => 2, fun _ => 3⟩ 32 32
      (fun _ => 0) 0 ⟨2, 1, fun r _ => if r = 0 then 7 else 1⟩ 0 0
      (by norm_num) (by norm_num) (by norm_num) (by norm_num)
      (by norm_num [ConvLayer.outArea, ConvLayer.oH, ConvLayer.oW])).1
  rw [h]
  norm_num [convn_valid_entry, ConvLayer.outArea, ConvLayer.inArea, ConvLayer.oH,
    ConvLayer.oW, Finset.sum_range_succ]

/-- C3: `ConvolutionalLayer::feedBackward` resizes the upstream error to
the input layout (`img_in.area()·nInputs + 1` rows) zero-filled, and
produces, for input map `i = r / inArea`, pixel `(x, y) =
(a / H, a % H)` of `a = r % inArea`, and batch column `b`, the sum over
output maps `j` of the FULL convolution (zero-padded, the direct FULL
kernel's formula) of the downstream error map `j` with the 180°-rotated
`kernel[i][j]` — `upstreamError_i = Σ_j full_conv(error_j, flip(k_ij))`. -/
theorem feedBackward_formula (L : ConvLayer) (bdx bdy : ℕ) (delta : Mat)
    (r b : ℕ) (hbx : 1 ≤ bdx) (hby : 1 ≤ bdy)
    (hr : r < L.inArea * L.nIn) :
    ((L.feedBackward bdx bdy delta).rows = L.inArea * L.nIn + 1) ∧
    ((L.feedBackward bdx bdy delta).entry r b
      = ∑ j ∈ Finset.range L.nOut,
          convn_full_entry (fun p => delta.entry (j * L.outArea + p) b)
            (rot180 L.kH L.kW (L.ker (r / L.inArea) j)) L.oH L.oW L.kH L.kW
            (r % L.inArea / L.H) (r % L.inArea % L.H)) := by
  have hApos : 0 < L.inArea := by
    rcases Nat.eq_zero_or_pos L.inArea with h0 | h
    · rw [h0, Nat.zero_mul] at hr
      exact absurd hr (Nat.not_lt_zero r)
    · exact h
  have hA : 0 < L.H * L.W := by
    have h := hApos
    rwa [ConvLayer.inArea] at h
  have hH : 0 < L.H := by
    rcases Nat.eq_zero_or_pos L.H with h0 | h
    · rw [h0, Nat.zero_mul] at hA
      exact absurd hA (by omega)
    · exact h
  have hW : 0 < L.W := by
    rcases Nat.eq_zero_or_pos L.W with h0 | h
    · rw [h0, Nat.mul_zero] at hA
      exact absurd hA (by omega)
    · exact h
  refine ⟨rfl, ?_⟩
  have hx : r % L.inArea / L.H < L.W := by
    have ha : r % L.inArea < L.H * L.W := by
      have h := Nat.mod_lt r hApos
      rwa [ConvLayer.inArea] at h
    exact (Nat.div_lt_iff_lt_mul hH).2 (by rwa [Nat.mul_comm] at ha)
  have hy : r % L.inArea % L.H < L.H := Nat.mod_lt _ hH
  unfold ConvLayer.feedBackward
  dsimp only
  rw [if_pos hr,
    List.foldl_ext _
      (fun acc j => acc + convn_full_entry
        (fun p => delta.entry (j * L.outArea + p) b)
        (rot180 L.kH L.kW (L.ker (r / L.inArea) j)) L.oH L.oW L.kH L.kW
        (r % L.inArea / L.H) (r % L.inArea % L.H))
      0
      (fun acc j _ =>
        convn_full_shm_true _ _ L.oH L.oW L.kH L.kW bdx bdy L.H L.W acc
          (r % L.inArea / L.H) (r % L.inArea % L.H) hbx hby hx hy),
    foldl_add_range, zero_add]

/-- C3 witness: a concrete backward pass (1 input map, 1 output map, 1×1
kernel of value 2, downstream error pixel 7): upstream error = 2·7 = 14. -/
theorem feedBackward_formula_witness :
    (ConvLayer.feedBackward ⟨1, 1, 1, 1, 1, 1, fun _ _ _ => 2, fun _ => 0⟩ 32 32
        ⟨2, 1, fun p _ => if p = 0 then 7 else 1⟩).entry 0 0 = 14 := by
  have h := (feedBackward_formula ⟨1, 1, 1, 1, 1, 1, fun _ _ _ => 2, fun _ => 0⟩ 32 32
      ⟨2, 1, fun p _ => if p = 0 then 7 else 1⟩ 0 0 (by norm_num) (by norm_num)
      (by norm_num [ConvLayer.inArea])).2
  rw [h]
  norm_num [convn_full_entry, rot180, ConvLayer.outArea, ConvLayer.inArea, ConvLayer.oH,
    ConvLayer.oW, Finset.sum_range_succ]

/-- C7: under exact arithmetic the direct and shared-memory-tiled kernels
agree at every covered output pixel — for every thread-block shape with
both axes at least 1 (hence in particular for the shrunk block shapes the
tiling scheduler produces for large kernels), every shared-memory garbage
content `g`, with `rot180data=false, rot180kernel=false` and a
zero-initialized output: VALID tiled = VALID direct, and FULL tiled =
FULL direct. -/
theorem tiled_kernels_match_direct :
    (∀ (g dat kernel : ℕ → ℚ) (H W kH kW bdx bdy vH vW x y : ℕ),
        1 ≤ bdx → 1 ≤ bdy → vH + kH = H + 1 → vW + kW = W + 1 →
        x < vW → y < vH →
        convn_valid_shm_entry false false g dat kernel vH vW H W kH kW bdx bdy 0 x y
          = convn_valid_entry dat kernel H kH kW x y) ∧
    (∀ (dat kernel : ℕ → ℚ) (H W kH kW bdx bdy fH fW x y : ℕ),
        1 ≤ bdx → 1 ≤ bdy → x < fW → y < fH →
        convn_full_shm_entry false false dat kernel fH fW H W kH kW bdx bdy 0 x y
          = convn_full_entry dat kernel H W kH kW x y) := by
  constructor
  · intro g dat kernel H W kH kW bdx bdy vH vW x y hbx hby hvH hvW hx hy
    rw [convn_valid_shm_direct g dat kernel H W kH kW bdx bdy vH vW 0 x y
        hbx hby hvH hvW hx hy, zero_add]
  · intro dat kernel H W kH kW bdx bdy fH fW x y hbx hby hx hy
    rw [convn_full_shm_direct dat kernel H W kH kW bdx bdy fH fW 0 x y
        hbx hby hx hy, zero_add]

/-- C7 witness: both agreements instantiated — a 2×2 kernel `[1,2,3,4]`
over a 2×2 image `[0,1,2,3]` in VALID mode (tiled value 10), and the same
kernel over a 1×1 image `[5]` in FULL mode (corner value 5). -/
theorem tiled_kernels_match_direct_witness :
    convn_valid_shm_entry false false (fun _ => 0) (fun p => (p : ℚ))
        (fun p => (p : ℚ) + 1) 1 1 2 2 2 2 32 32 0 0 0 = 10 ∧
    convn_full_shm_entry false false (fun p => (p : ℚ) + 5)
        (fun p => (p : ℚ) + 1) 2 2 1 1 2 2 32 32 0 0 0 = 5 := by
  constructor
  · rw [tiled_kernels_match_direct.1 (fun _ => 0) (fun p => (p : ℚ))
        (fun p => (p : ℚ) + 1) 2 2 2 2 32 32 1 1 0 0
        (by norm_num) (by norm_num) (by norm_num) (by norm_num)
        (by norm_num) (by norm_num)]
    norm_num [convn_valid_entry, Finset.sum_range_succ]
  · rw [tiled_kernels_match_direct.2 (fun p => (p : ℚ) + 5)
        (fun p => (p : ℚ) + 1) 1 1 2 2 32 32 2 2 0 0
        (by norm_num) (by norm_num) (by norm_num) (by norm_num)]
    norm_num [convn_full_entry, Finset.sum_range_succ]

/-- C8 (amended): when the pooling scale divides both image dimensions
(and the uint8 launch parameters are faithful, dimensions < 256),
`SubSamplingLayer::feedBackward` gives every input pixel the downstream
error value at its pooled coordinate (integer-divided by the scale) times
`1/scale²`.  When the scale does not divide the dimensions the kernel
divides by `H/(H/scale)` and clamps instead, and the claim's formula
fails (see the counterexample). -/
theorem subFeedBackward_formula (S : SubLayer) (rdef : ℚ) (delta : Mat)
    (z x y b : ℕ)
    (hdH : S.scale ∣ S.H) (hdW : S.scale ∣ S.W)
    (hsH : S.scale ≤ S.H) (hsW : S.scale ≤ S.W)
    (hH256 : S.H < 256) (hW256 : S.W < 256)
    (hz : z < S.maps) (hx : x < S.H) (hy : y < S.W) :
    (S.feedBackward rdef delta).entry (z * (S.H * S.W) + y * S.H + x) b
      = delta.entry (z * (S.h * S.w) + (y / S.scale * S.h + x / S.scale)) b
          * (1 / ((S.scale : ℚ) * S.scale)) := by
  have hs : 1 ≤ S.scale := by
    rcases Nat.eq_zero_or_pos S.scale with h0 | h
    · exact absurd (h0 ▸ hdH) (by simpa [h0] using fun h => by omega)
    · exact h
  have hh0 : 0 < S.h := Nat.div_pos hsH (by omega)
  have hw0 : 0 < S.w := Nat.div_pos hsW (by omega)
  have hhlt : S.h < 256 := lt_of_le_of_lt (Nat.div_le_self _ _) hH256
  have hwlt : S.w < 256 := lt_of_le_of_lt (Nat.div_le_self _ _) hW256
  have hHs : S.scale * S.h = S.H := Nat.mul_div_cancel' hdH
  have hWs : S.scale * S.w = S.W := Nat.mul_div_cancel' hdW
  have hyx : y * S.H + x < S.H * S.W := by
    have h1 : y * S.H + x < (y + 1) * S.H := by
      rw [Nat.add_one_mul]
      omega
    have h2 : (y + 1) * S.H ≤ S.W * S.H := Nat.mul_le_mul_right _ (by omega)
    rw [Nat.mul_comm S.H S.W]
    omega
  have hcond : 0 < S.H * S.W ∧
      z * (S.H * S.W) + y * S.H + x < S.maps * (S.H * S.W) := by
    constructor
    · omega
    · have h1 : z * (S.H * S.W) + y * S.H + x < (z + 1) * (S.H * S.W) := by
        rw [Nat.add_one_mul]
        omega
      have h2 : (z + 1) * (S.H * S.W) ≤ S.maps * (S.H * S.W) :=
        Nat.mul_le_mul_right _ (by omega)
      omega
  unfold SubLayer.feedBackward
  dsimp only
  rw [Nat.mod_eq_of_lt hhlt, Nat.mod_eq_of_lt hwlt, Nat.mod_eq_of_lt hH256,
    Nat.mod_eq_of_lt hW256, if_pos hcond]
  unfold upsample_entry
  dsimp only
  rw [Nat.add_assoc (z * (S.H * S.W)), mulAdd_div hyx, mulAdd_mod hyx,
    mulAdd_div hx, mulAdd_mod hx]
  unfold upsample_src_index upsample_sx upsample_sy
  dsimp only
  rw [show S.H / S.h = S.scale from by
      unfold SubLayer.h
      exact Nat.div_div_self hdH (by omega)]
  have hxne : ¬(x / S.scale = S.h) := by
    have h1 : x / S.scale < S.h :=
      (Nat.div_lt_iff_lt_mul (by omega)).2 (by rw [Nat.mul_comm S.h S.scale, hHs]; omega)
    omega
  have hyne : ¬(y / S.scale = S.w) := by
    have h1 : y / S.scale < S.w :=
      (Nat.div_lt_iff_lt_mul (by omega)).2 (by rw [Nat.mul_comm S.w S.scale, hWs]; omega)
    omega
  rw [if_neg hxne, if_neg hyne]

/-- C8 counterexample: scale 2 on a 3×2 image (the scale does not divide
the height).  At input pixel `x = 2, y = 0` the kernel divides by
`H/(H/scale) = 3` and reads pooled entry 0 (value 10), while the claim's
pooled coordinate `x div 2 = 1` names entry 1 (value 99): the produced
value is `10/4`, not the claimed `99/4`. -/
theorem subFeedBackward_not_div_by_scale :
    ((SubLayer.feedBackward ⟨1, 2, 3, 2⟩ 0
        ⟨2, 1, fun p _ => if p = 0 then 10 else 99⟩).entry 2 0 = 10 * (1 / 4)) ∧
    ((10 * (1 / 4) : ℚ) ≠ 99 * (1 / 4)) := by
  constructor
  · norm_num [SubLayer.feedBackward, SubLayer.h, SubLayer.w, upsample_entry,
      upsample_src_index, upsample_sx, upsample_sy]
  · norm_num

/-- C8 witness: scale 2 on a 2×2 image with an all-ones downstream error —
every upstream error pixel is `1/4 = 0.25`. -/
theorem subFeedBackward_formula_witness :
    (SubLayer.feedBackward ⟨1, 2, 2, 2⟩ 0 ⟨2, 1, fun _ _ => 1⟩).entry 3 0
      = 1 / 4 := by
  have h := subFeedBackward_formula ⟨1, 2, 2, 2⟩ 0 ⟨2, 1, fun _ _ => 1⟩ 0 1 1 0
    (by norm_num) (by norm_num) (by norm_num) (by norm_num) (by norm_num)
    (by norm_num) (by norm_num) (by norm_num) (by norm_num)
  norm_num [SubLayer.h, SubLayer.w] at h
  exact h

/-- C9 (amended): in `upsample_kernel`, with `scale = H/h ≥ 1` and pooled
dimensions `1 ≤ h, w ≤ 255`: a source coordinate quotient equal to the
pooled dimension is clamped back by one (the uint8 decrement evaluates to
`h-1` resp. `w-1`); whenever both quotients are at most the pooled
dimensions — which holds when `h` divides `H` and in every
`SubSamplingLayer` use, but not for arbitrary parameters (see the
counterexample) — the source read is strictly in bounds; and output rows
at or beyond `h·scale` read the last pooled row (replication). -/
theorem upsample_clamp_spec (h w H x y : ℕ)
    (hh1 : 1 ≤ h) (hw1 : 1 ≤ w) (hh2 : h ≤ 255) (hw2 : w ≤ 255)
    (hs : 1 ≤ H / h) :
    (x / (H / h) = h → upsample_sx h H x = h - 1) ∧
    (y / (H / h) = w → upsample_sy h w H y = w - 1) ∧
    (x / (H / h) ≤ h → y / (H / h) ≤ w →
      upsample_src_index h w H x y < h * w) ∧
    (h * (H / h) ≤ x → x / (H / h) ≤ h → upsample_sx h H x = h - 1) := by
  refine ⟨?_, ?_, ?_, ?_⟩
  · intro hc
    unfold upsample_sx
    dsimp only
    rw [if_pos hc, hc]
    omega
  · intro hc
    unfold upsample_sy
    dsimp only
    rw [if_pos hc, hc]
    omega
  · intro hxb hyb
    unfold upsample_src_index
    have hsx : upsample_sx h H x ≤ h - 1 := by
      unfold upsample_sx
      dsimp only
      split_ifs with hc
      · omega
      · omega
    have hsy : upsample_sy h w H y ≤ w - 1 := by
      unfold upsample_sy
      dsimp only
      split_ifs with hc
      · omega
      · omega
    calc upsample_sy h w H y * h + upsample_sx h H x
        ≤ (w - 1) * h + (h - 1) := Nat.add_le_add (Nat.mul_le_mul_right _ hsy) hsx
      _ < h * w := by
          rw [Nat.sub_one_mul]
          have h1 : h ≤ w * h := Nat.le_mul_of_pos_left h hw1
          have h2 : w * h = h * w := Nat.mul_comm w h
          omega
  · intro hge hle
    have hc : x / (H / h) = h := by
      have h1 : h ≤ x / (H / h) := (Nat.le_div_iff_mul_le (by omega)).2 hge
      omega
    unfold upsample_sx
    dsimp only
    rw [if_pos hc, hc]
    omega

/-- C9 counterexample: `upsample_kernel` with pooled size `h = 5, w = 1`
and output size `H = 9, W = 1`.  Thread `(x, y) = (8, 0)` is in range
(`8 < 9`, `0 < 1`), `scale = 9/5 = 1`, `sx = 8/1 = 8 ≠ h` so no clamp
fires, and the source read index is `8 ≥ h·w = 5` — an out-of-bounds
read, refuting the claimed universal in-bounds property. -/
theorem upsample_read_out_of_bounds :
    (8 < 9 ∧ 0 < 1) ∧ upsample_src_index 5 1 9 8 0 = 8 ∧
      ¬(upsample_src_index 5 1 9 8 0 < 5 * 1) := by
  refine ⟨⟨by norm_num, by norm_num⟩, ?_, ?_⟩ <;>
    norm_num [upsample_src_index, upsample_sx, upsample_sy]

/-- C9 witness: `h = w = 2, H = 5` (scale 2): row `x = 4` has
`4/2 = 2 = h` and is clamped to row 1; the read index 3 is within the
4-entry pooled map. -/
theorem upsample_clamp_spec_witness :
    upsample_sx 2 5 4 = 1 ∧ upsample_src_index 2 2 5 4 2 < 2 * 2 := by
  have h := upsample_clamp_spec 2 2 5 4 2 (by norm_num) (by norm_num)
    (by norm_num) (by norm_num) (by norm_num)
  exact ⟨h.1 (by norm_num), h.2.2.1 (by norm_num) (by norm_num)⟩

/-- C10: the pooling layers pass the scale and image dimensions to the
device kernels as `uint8_t`, i.e. reduced modulo 256 (the reductions are
explicit in the embedded `SubLayer.feedForward` / `feedBackward`): when
the scale and both dimensions are below 256 the layers compute exactly the
kernels' pooling semantics at the true parameters (first two conjuncts),
while for an image height of 300 ≥ 256 the computed entry differs from
the unreduced semantics (third conjunct). -/
theorem pooling_uint8_truncation (S : SubLayer) (rdef : ℚ) (fin delta : Mat)
    (r rb b : ℕ)
    (hs256 : S.scale < 256) (hH256 : S.H < 256) (hW256 : S.W < 256)
    (hr0 : 0 < S.h * S.w) (hr : r < S.maps * (S.h * S.w))
    (hb0 : 0 < S.H * S.W) (hrb : rb < S.maps * (S.H * S.W)) :
    ((S.feedForward rdef fin).entry r b
        = downsample_entry (fun p => fin.entry p b) S.scale S.H S.W r) ∧
    ((S.feedBackward rdef delta).entry rb b
        = upsample_entry (fun p => delta.entry p b) S.h S.w S.H S.W rb
            * (1 / ((S.scale : ℚ) * S.scale))) ∧
    ((SubLayer.feedForward ⟨1, 2, 300, 4⟩ 0 ⟨1201, 1, fun p _ => (p : ℚ)⟩).entry 23 0
        ≠ downsample_entry (fun p => (p : ℚ)) 2 300 4 23) := by
  have hh : S.h % 256 = S.h :=
    Nat.mod_eq_of_lt (lt_of_le_of_lt (Nat.div_le_self _ _) hH256)
  have hw : S.w % 256 = S.w :=
    Nat.mod_eq_of_lt (lt_of_le_of_lt (Nat.div_le_self _ _) hW256)
  have hr0' : 0 < S.H / S.scale * (S.W / S.scale) := hr0
  have hr' : r < S.maps * (S.H / S.scale * (S.W / S.scale)) := hr
  refine ⟨?_, ?_, ?_⟩
  · unfold SubLayer.feedForward
    dsimp only
    rw [Nat.mod_eq_of_lt hs256, Nat.mod_eq_of_lt hH256, Nat.mod_eq_of_lt hW256,
      if_pos ⟨hr0', hr'⟩]
  · unfold SubLayer.feedBackward
    dsimp only
    rw [hh, hw, Nat.mod_eq_of_lt hH256, Nat.mod_eq_of_lt hW256,
      if_pos ⟨hb0, hrb⟩]
  · norm_num [SubLayer.feedForward, downsample_entry, Finset.sum_range_succ]

/-- C10 witness: scale 2 on a 2×2 image (all parameters below 256) with
pixel values 0..3: the pooled entry is their mean 3/2. -/
theorem pooling_uint8_truncation_witness :
    (SubLayer.feedForward ⟨1, 2, 2, 2⟩ 0 ⟨5, 1, fun p _ => (p : ℚ)⟩).entry 0 0
      = 3 / 2 := by
  have h := (pooling_uint8_truncation ⟨1, 2, 2, 2⟩ 0 ⟨5, 1, fun p _ => (p : ℚ)⟩
      ⟨5, 1, fun p _ => (p : ℚ)⟩ 0 0 0
      (by norm_num) (by norm_num) (by norm_num)
      (by norm_num [SubLayer.h, SubLayer.w])
      (by norm_num [SubLayer.h, SubLayer.w])
      (by norm_num) (by norm_num)).1
  rw [h]
  norm_num [downsample_entry, Finset.sum_range_succ]

end CnnUtility
